import Mathlib

/-!
Verification of the zza-cache repository: a shallow embedding of its
bounded LRU cache (`lru/lru.go`), consistent-hash ring
(`consistenthash`), namespace coordinator (`zzacache.go`) and the
HTTP peer client's URL construction, together with proofs of the
specification's claims about them.

The file is organised as definitions first (one namespace per Go
package), then the supporting lemmas and the claim theorems.
-/

set_option maxHeartbeats 1000000

namespace Lru

/-- One node of the doubly linked list: Go's `entry` struct in
`lru/lru.go` (`key string`, `value Value`).  Values are modelled as byte
lists, matching `ByteView` (the only `Value` the repository stores), whose
`Len` is the byte count. -/
structure Entry where
  key : String
  value : List Nat
  deriving DecidableEq, Repr

/-- Go `len(key) + value.Len()`: the byte cost one entry contributes to
`nbytes` (`len` on a Go string counts UTF-8 bytes). -/
def entrySize (e : Entry) : Nat := e.key.utf8ByteSize + e.value.length

/-- The `lru.Cache` struct.  The Go `*list.List` is the list `ll` with the
front (most recently used) at the head; the Go map `cache` stores pointers
into `ll`, so in the embedding it is carried as its key set `mapKeys`,
updated exactly where the Go code touches the map, while dereferencing a
stored pointer becomes looking up that key's entry in `ll`. -/
structure Cache where
  maxBytes : Int
  nbytes : Int
  ll : List Entry
  mapKeys : List String
  deriving DecidableEq, Repr

/-- `lru.New(maxBytes, onEvicted)`: the eviction callback has no effect on
cache state, so it is not carried. -/
def Cache.new (maxBytes : Int) : Cache :=
  { maxBytes := maxBytes, nbytes := 0, ll := [], mapKeys := [] }

/-- Sum of `entrySize` over the stored entries. -/
def sumSizes (l : List Entry) : Nat := (l.map entrySize).sum

/-- `Cache.Get`: on a hit, the node is moved to the front of `ll`
(`MoveToFront`) and its value returned.  The map test `ele, ok :=
c.cache[key]` is the `mapKeys` membership test; the pointer dereference is
the first entry of `ll` with that key (the inner `none` case is a dangling
map pointer, unreachable in any state the operations construct). -/
def Cache.get (c : Cache) (key : String) : Option (List Nat) × Cache :=
  if key ∈ c.mapKeys then
    match c.ll.find? (fun e => e.key == key) with
    | some e =>
        (some e.value, { c with ll := e :: c.ll.eraseP (fun e => e.key == key) })
    | none => (none, c)
  else (none, c)

/-- The insert/update part of `Cache.Add`, before the eviction loop.
Existing key: `MoveToFront`, adjust `nbytes` by the size delta, overwrite
the node's value.  New key: `PushFront` a fresh entry, record the key in
the map, add the full entry size. -/
def Cache.addNoEvict (c : Cache) (key : String) (value : List Nat) : Cache :=
  if key ∈ c.mapKeys then
    match c.ll.find? (fun e => e.key == key) with
    | some e =>
        { c with
            ll := { key := e.key, value := value } :: c.ll.eraseP (fun e => e.key == key),
            nbytes := c.nbytes + (value.length : Int) - (e.value.length : Int) }
    | none => c
  else
    { c with
        ll := { key := key, value := value } :: c.ll,
        mapKeys := key :: c.mapKeys,
        nbytes := c.nbytes + (key.utf8ByteSize : Int) + (value.length : Int) }

/-- `Cache.RemoveOldest`: drop the back node of `ll` (if any), delete its
key from the map, subtract its size from `nbytes`.  The `OnEvicated`
callback does not change cache state. -/
def Cache.removeOldest (c : Cache) : Cache :=
  match c.ll.getLast? with
  | none => c
  | some e =>
      { c with
          ll := c.ll.dropLast,
          mapKeys := c.mapKeys.erase e.key,
          nbytes := c.nbytes - ((e.key.utf8ByteSize : Int) + (e.value.length : Int)) }

/-- The eviction loop of `Cache.Add`:
`for c.maxBytes != 0 && c.maxBytes < c.nbytes { c.RemoveOldest() }`.
Each productive iteration removes a node, so in any state where `nbytes`
is the sum of the stored entry sizes the loop runs at most `ll.length`
times; that count is used as structural fuel and the recursion agrees
with the Go loop on every such state. -/
def evictLoop : Nat → Cache → Cache
  | 0, c => c
  | n + 1, c =>
      if c.maxBytes ≠ 0 ∧ c.maxBytes < c.nbytes then evictLoop n c.removeOldest else c

/-- `Cache.Add`: insert/update, then run the eviction loop. -/
def Cache.add (c : Cache) (key : String) (value : List Nat) : Cache :=
  let c' := c.addNoEvict key value
  evictLoop c'.ll.length c'

/-- `Cache.Len`: the length of the doubly linked list (`c.ll.Len()`). -/
def Cache.len (c : Cache) : Nat := c.ll.length

/-- The structural invariant tying the three mutable fields together:
`nbytes` is the exact byte sum of the stored entries, the list holds no
duplicate keys, the map's key set is duplicate-free, and map and list
agree on which keys are present. -/
def Inv (c : Cache) : Prop :=
  c.nbytes = (sumSizes c.ll : Int) ∧
  (c.ll.map Entry.key).Nodup ∧
  c.mapKeys.Nodup ∧
  ∀ k, k ∈ c.mapKeys ↔ k ∈ c.ll.map Entry.key

/-- Run a sequence of `Add` operations (key, value pairs) in order. -/
def applyAdds : Cache → List (String × List Nat) → Cache
  | c, [] => c
  | c, (k, v) :: ops => applyAdds (c.add k v) ops

/-- The cache operations a claim may interleave: `Get`, `Add`,
`RemoveOldest`. -/
inductive CacheOp where
  | get (key : String)
  | add (key : String) (value : List Nat)
  | removeOldest

/-- Interpret one operation, keeping only the state. -/
def applyOp (c : Cache) : CacheOp → Cache
  | .get k => (c.get k).2
  | .add k v => c.add k v
  | .removeOldest => c.removeOldest

/-- Interpret a sequence of operations from left to right. -/
def applyOps (c : Cache) (ops : List CacheOp) : Cache := ops.foldl applyOp c

end Lru

namespace Consistenthash

/-- The `consistenthash.Map` struct.  Go's `Hash` is `func([]byte) uint32`
applied to the bytes of a string; a `uint32` value embeds into `Nat`, and
`int(m.hash(...))` on a 64-bit platform is lossless on `uint32`, so the
hash field abstracts the composite `String → Nat` function.  The Go map
`hashMap map[int]string` is an association list with the newest binding
in front. -/
structure Map where
  hash : String → Nat
  replicas : Nat
  keys : List Nat
  hashMap : List (Nat × String)

/-- `consistenthash.New(replicas, fn)` (the `crc32.ChecksumIEEE` default
is just one possible hash argument here). -/
def Map.new (replicas : Nat) (hash : String → Nat) : Map :=
  { hash := hash, replicas := replicas, keys := [], hashMap := [] }

/-- Go map read `m.hashMap[h]`: newest binding wins; a missing key yields
the string zero value `""`. -/
def mapFind (l : List (Nat × String)) (h : Nat) : String :=
  match l.find? (fun p => p.1 == h) with
  | some p => p.2
  | none => ""

/-- The inner loop of `Map.Add` for one real node `key`: for each replica
index `i` in `0..replicas-1`, hash `strconv.Itoa(i) + key`, append the
position to `keys` and bind it to `key` in `hashMap`. -/
def Map.addOne (m : Map) (key : String) : Map :=
  (List.range m.replicas).foldl
    (fun acc i =>
      { acc with
          keys := acc.keys ++ [acc.hash (toString i ++ key)],
          hashMap := (acc.hash (toString i ++ key), key) :: acc.hashMap })
    m

/-- `Map.Add(keys...)`: run the replica loop for every node, then sort the
position list ascending (`sort.Ints`); sorting a list of naturals is
unique up to equality, so `insertionSort` is the same function. -/
def Map.Add (m : Map) (ks : List String) : Map :=
  let m' := ks.foldl Map.addOne m
  { m' with keys := m'.keys.insertionSort (· ≤ ·) }

/-- Go `sort.Search(n, f)`: for the monotone predicates `Get` uses on the
sorted `keys` slice, binary search returns the least index satisfying the
predicate (or `n` when none does), which is the first index satisfying
it. -/
def sortSearch (p : Nat → Bool) : List Nat → Nat
  | [] => 0
  | x :: xs => if p x then 0 else sortSearch p xs + 1

/-- `Map.Get`: empty ring yields `""`; otherwise binary-search the first
position `≥ hash(key)` and read the node bound at
`m.keys[idx % len(m.keys)]`. -/
def Map.Get (m : Map) (key : String) : String :=
  if m.keys.length = 0 then ""
  else
    mapFind m.hashMap
      (m.keys.getD (sortSearch (fun pos => m.hash key ≤ pos) m.keys % m.keys.length) 0)

/-- The lookup rule in the spec's words, for comparison with `Map.Get`:
the node mapped at the smallest ring position `≥ hash(key)`, wrapping
around to the smallest position overall when the hash exceeds every
position, and empty on an empty ring. -/
def specClockwise (m : Map) (key : String) : String :=
  match (m.keys.filter (fun pos => m.hash key ≤ pos)).min? with
  | some pos => mapFind m.hashMap pos
  | none =>
      match m.keys.min? with
      | some pos => mapFind m.hashMap pos
      | none => ""

end Consistenthash

namespace ZzaCache

/-- `ByteView` (`byteview.go`): an immutable byte payload. -/
structure ByteView where
  b : List Nat
  deriving DecidableEq, Repr

/-- `ByteView.Len`. -/
def ByteView.len (v : ByteView) : Nat := v.b.length

/-- `cloneBytes`: a fresh copy of the bytes; copies are value-equal, which
is all a pure model observes. -/
def cloneBytes (b : List Nat) : List Nat := b

/-- The `PeerGetter` contract: fetch `(group, key)` from one peer,
returning bytes or an error. -/
structure PeerGetter where
  get : String → String → Except String (List Nat)

/-- The `PeerPicker` contract: `PickPeer(key) → (peer, ok)`. -/
structure PeerPicker where
  pickPeer : String → Option PeerGetter

/-- Modelled from the spec: the `cache` wrapper type used by
`zzacache.go` (`cache{cacheBytes: cacheBytes}`, `.get`, `.add`) — its
source file is not under src/.  Per the spec the Coordinator "owns one
named instance of the Bounded Recency Cache" with the configured byte
budget; the wrapper's mutex is irrelevant in this sequential model, so it
is a pass-through to the LRU cache. -/
structure GCache where
  cacheBytes : Int
  lru : Lru.Cache

/-- Modelled from the spec: a fresh empty bounded cache of the given
budget. -/
def GCache.new (cacheBytes : Int) : GCache :=
  { cacheBytes := cacheBytes, lru := Lru.Cache.new cacheBytes }

/-- Modelled from the spec: wrapper get, delegating to the LRU cache. -/
def GCache.get (c : GCache) (key : String) : Option ByteView × GCache :=
  let r := c.lru.get key
  (r.1.map ByteView.mk, { c with lru := r.2 })

/-- Modelled from the spec: wrapper add, delegating to the LRU cache. -/
def GCache.add (c : GCache) (key : String) (value : ByteView) : GCache :=
  { c with lru := c.lru.add key value.b }

/-- The `Group` struct: a namespace coordinator.  The Loader (`Getter`)
is the function `getter`; errors are carried as strings. -/
structure Group where
  name : String
  getter : String → Except String (List Nat)
  mainCache : GCache
  peers : Option PeerPicker

/-- `NewGroup` minus the global registry bookkeeping (the registry does
not affect a single coordinator's request pipeline). -/
def Group.new (name : String) (cacheBytes : Int)
    (getter : String → Except String (List Nat)) : Group :=
  { name := name, getter := getter, mainCache := GCache.new cacheBytes, peers := none }

/-- Result of a coordinator call, instrumented with how many times the
Loader was invoked, the local cache consulted, and `PickPeer` consulted.
The counters mirror the call sites in `zzacache.go` and do not alter the
modelled behaviour. -/
structure GetOut where
  res : Except String ByteView
  g : Group
  loaderCalls : Nat
  cacheLookups : Nat
  peerPicks : Nat

/-- `Group.getLocally`: invoke the Loader; on success wrap a clone of the
bytes as a `ByteView`, populate the local cache (`populateCache`) and
return the value. -/
def Group.getLocally (g : Group) (key : String) : GetOut :=
  match g.getter key with
  | .error e => ⟨.error e, g, 1, 0, 0⟩
  | .ok bytes =>
      let value : ByteView := ⟨cloneBytes bytes⟩
      ⟨.ok value, { g with mainCache := g.mainCache.add key value }, 1, 0, 0⟩

/-- `Group.getFromPeer`: fetch from the chosen peer; on success the bytes
are wrapped as a `ByteView` (without cloning and without caching). -/
def Group.getFromPeer (g : Group) (peer : PeerGetter) (key : String) :
    Except String ByteView :=
  match peer.get g.name key with
  | .error e => .error e
  | .ok bytes => .ok ⟨bytes⟩

/-- `Group.load`: if a picker is registered and picks a peer, try the
remote fetch; on remote success return the value as is, on remote failure
(logged only) or no peer fall back to `getLocally`. -/
def Group.load (g : Group) (key : String) : GetOut :=
  match g.peers with
  | some pp =>
      match pp.pickPeer key with
      | some peer =>
          match g.getFromPeer peer key with
          | .ok v => ⟨.ok v, g, 0, 0, 1⟩
          | .error _ =>
              let o := g.getLocally key
              { o with peerPicks := o.peerPicks + 1 }
      | none =>
          let o := g.getLocally key
          { o with peerPicks := o.peerPicks + 1 }
  | none => g.getLocally key

/-- `Group.Get`: reject the empty key, try the local cache, otherwise
`load`. -/
def Group.get (g : Group) (key : String) : GetOut :=
  if key = "" then ⟨.error "key不能为空", g, 0, 0, 0⟩
  else
    match g.mainCache.get key with
    | (some v, c') => ⟨.ok v, { g with mainCache := c' }, 0, 1, 0⟩
    | (none, c') =>
        let o := Group.load { g with mainCache := c' } key
        { o with cacheLookups := o.cacheLookups + 1 }

/-- Hex digit characters used by percent-escaping (uppercase, as Go's
`url.QueryEscape` produces). -/
def hexDigit (n : Nat) : Char :=
  (['0', '1', '2', '3', '4', '5', '6', '7', '8', '9',
    'A', 'B', 'C', 'D', 'E', 'F'] : List Char).getD n '0'

/-- UTF-8 encoding of one character, as Go produces for `[]byte(s)`. -/
def charUtf8Bytes (c : Char) : List Nat :=
  let n := c.toNat
  if n < 128 then [n]
  else if n < 2048 then [192 + n / 64, 128 + n % 64]
  else if n < 65536 then [224 + n / 4096, 128 + (n / 64) % 64, 128 + n % 64]
  else [240 + n / 262144, 128 + (n / 4096) % 64, 128 + (n / 64) % 64, 128 + n % 64]

/-- The UTF-8 bytes of a string. -/
def strUtf8 (s : String) : List Nat :=
  s.data.foldr (fun c acc => charUtf8Bytes c ++ acc) []

/-- Bytes `url.QueryEscape` leaves unescaped: ASCII letters, digits, and
`-`, `_`, `.`, `~`. -/
def isUnreservedByte (b : Nat) : Bool :=
  (decide (65 ≤ b) && decide (b ≤ 90)) ||
  (decide (97 ≤ b) && decide (b ≤ 122)) ||
  (decide (48 ≤ b) && decide (b ≤ 57)) ||
  decide (b = 45) || decide (b = 95) || decide (b = 46) || decide (b = 126)

/-- Percent-escape one byte. -/
def escapeByte (b : Nat) : List Char :=
  ['%', hexDigit (b / 16), hexDigit (b % 16)]

/-- Go `url.QueryEscape`: unreserved bytes kept, space becomes `+`, every
other byte percent-escaped. -/
def queryEscape (s : String) : String :=
  ⟨(strUtf8 s).foldr
    (fun b acc =>
      (if b = 32 then ['+']
       else if isUnreservedByte b then [Char.ofNat b]
       else escapeByte b) ++ acc) []⟩

/-- `defaultBasePath = "/_zzacache"` (no trailing slash in the source
constant). -/
def defaultBasePath : String := "/_zzacache"

/-- `httpGetter.Get`'s URL:
`fmt.Sprintf("%v%v/%v", h.baseURL, url.QueryEscape(group), url.QueryEscape(key))`. -/
def httpGetterURL (baseURL group key : String) : String :=
  baseURL ++ queryEscape group ++ "/" ++ queryEscape key

/-- `HTTPPool.Set`: each peer's client is built with
`baseURL = peer + p.basePath` and the pool's base path is
`defaultBasePath`. -/
def peerBaseURL (peer : String) : String := peer ++ defaultBasePath

/-- The URL the repository's client actually requests for a given
(peer address, namespace, key). -/
def fetchURL (peer group key : String) : String :=
  httpGetterURL (peerBaseURL peer) group key

/-- The URL in the spec's words —
`{baseURL}{basePath}/{urlEscape(namespace)}/{urlEscape(key)}`, with a
path separator between the base path and the namespace segment — written
from the spec for comparison with `fetchURL`. -/
def specFetchURL (peer basePath group key : String) : String :=
  peer ++ basePath ++ "/" ++ queryEscape group ++ "/" ++ queryEscape key

end ZzaCache

/-! ## Supporting lemmas -/

/-- If `find?` locates an element, the list is a permutation of that
element consed onto the list with the first match erased. -/
theorem find?_perm_cons_eraseP {α : Type} (p : α → Bool) :
    ∀ (l : List α) (e : α), l.find? p = some e → l.Perm (e :: l.eraseP p) := by
  intro l
  induction l with
  | nil => intro e h; simp at h
  | cons a l ih =>
    intro e h
    by_cases hpa : p a
    · rw [List.find?_cons_of_pos _ hpa] at h
      cases h
      rw [List.eraseP_cons_of_pos hpa]
    · rw [List.find?_cons_of_neg _ hpa] at h
      rw [List.eraseP_cons_of_neg hpa]
      exact (List.Perm.cons a (ih e h)).trans (List.Perm.swap e a _)

/-- An element produced by `find?` satisfies the predicate and belongs to
the list. -/
theorem find?_mem_and_pred {α : Type} {p : α → Bool} {l : List α} {e : α}
    (h : l.find? p = some e) : e ∈ l ∧ p e :=
  ⟨List.mem_of_find?_eq_some h, List.find?_some h⟩

namespace Lru

theorem inv_new (maxBytes : Int) : Inv (Cache.new maxBytes) := by
  refine ⟨rfl, ?_, ?_, ?_⟩ <;> simp [Cache.new]

theorem sumSizes_perm {l l' : List Entry} (h : l.Perm l') : sumSizes l = sumSizes l' :=
  (h.map entrySize).sum_eq

theorem sumSizes_append (l l' : List Entry) :
    sumSizes (l ++ l') = sumSizes l + sumSizes l' := by
  simp [sumSizes]

theorem sumSizes_cons (e : Entry) (l : List Entry) :
    sumSizes (e :: l) = entrySize e + sumSizes l := by
  simp [sumSizes]

/-- `Get` preserves the invariant. -/
theorem inv_get (c : Cache) (key : String) (h : Inv c) : Inv (c.get key).2 := by
  obtain ⟨hn, hd, hm, hiff⟩ := h
  unfold Cache.get
  by_cases hk : key ∈ c.mapKeys
  · simp only [if_pos hk]
    cases hfind : c.ll.find? (fun e => e.key == key) with
    | none => exact ⟨hn, hd, hm, hiff⟩
    | some e =>
        have hperm := find?_perm_cons_eraseP _ _ _ hfind
        have hkeys : (c.ll.map Entry.key).Perm
            ((e :: c.ll.eraseP (fun e => e.key == key)).map Entry.key) :=
          hperm.map Entry.key
        refine ⟨?_, ?_, hm, ?_⟩
        · simpa [sumSizes_perm hperm] using hn
        · exact hkeys.nodup_iff.mp hd
        · intro k
          rw [hiff k]
          exact ⟨fun hmem => hkeys.mem_iff.mp hmem, fun hmem => hkeys.mem_iff.mpr hmem⟩
  · simp only [if_neg hk]
    exact ⟨hn, hd, hm, hiff⟩

/-- `addNoEvict` preserves the invariant. -/
theorem inv_addNoEvict (c : Cache) (key : String) (value : List Nat) (h : Inv c) :
    Inv (c.addNoEvict key value) := by
  obtain ⟨hn, hd, hm, hiff⟩ := h
  unfold Cache.addNoEvict
  by_cases hk : key ∈ c.mapKeys
  · simp only [if_pos hk]
    cases hfind : c.ll.find? (fun e => e.key == key) with
    | none => exact ⟨hn, hd, hm, hiff⟩
    | some e =>
        have hperm := find?_perm_cons_eraseP _ _ _ hfind
        have hekey : e.key = key := by
          have := (find?_mem_and_pred hfind).2
          simpa using this
        -- keys of the new list are a permutation of the old keys
        have hkeys : (c.ll.map Entry.key).Perm
            (({ key := e.key, value := value } :: c.ll.eraseP (fun e => e.key == key) :
              List Entry).map Entry.key) := by
          have := hperm.map Entry.key
          simpa using this
        refine ⟨?_, ?_, hm, ?_⟩
        · have hsum := sumSizes_perm hperm
          rw [sumSizes_cons] at hsum
          simp only []
          rw [sumSizes_cons]
          have : entrySize { key := e.key, value := value } =
              e.key.utf8ByteSize + value.length := rfl
          rw [this]
          have he : entrySize e = e.key.utf8ByteSize + e.value.length := rfl
          rw [he] at hsum
          rw [hn, hsum]
          push_cast
          ring
        · exact hkeys.nodup_iff.mp hd
        · intro k
          rw [hiff k]
          exact ⟨fun hmem => hkeys.mem_iff.mp hmem, fun hmem => hkeys.mem_iff.mpr hmem⟩
  · simp only [if_neg hk]
    have hknotin : key ∉ c.ll.map Entry.key := fun hmem => hk ((hiff key).mpr hmem)
    refine ⟨?_, ?_, ?_, ?_⟩
    · simp only [List.map_cons]
      rw [sumSizes_cons, hn]
      have : entrySize { key := key, value := value } =
          key.utf8ByteSize + value.length := rfl
      rw [this]
      push_cast
      ring
    · simp only [List.map_cons, List.nodup_cons]
      exact ⟨hknotin, hd⟩
    · exact List.nodup_cons.mpr ⟨hk, hm⟩
    · intro k
      simp only [List.mem_cons, List.map_cons]
      rw [hiff k]

/-- `removeOldest` preserves the invariant. -/
theorem inv_removeOldest (c : Cache) (h : Inv c) : Inv c.removeOldest := by
  obtain ⟨hn, hd, hm, hiff⟩ := h
  unfold Cache.removeOldest
  rcases List.eq_nil_or_concat c.ll with hnil | ⟨l', a, hconcat⟩
  · rw [hnil]
    simp only [List.getLast?_nil]
    exact ⟨hn, hd, hm, hiff⟩
  · rw [List.concat_eq_append] at hconcat
    rw [hconcat]
    rw [List.getLast?_concat]
    simp only [List.dropLast_concat]
    rw [hconcat] at hn hd hiff
    have hsum : sumSizes (l' ++ [a]) = sumSizes l' + entrySize a := by
      rw [sumSizes_append, sumSizes_cons]
      simp [sumSizes]
    have hkeys : (l' ++ [a]).map Entry.key = l'.map Entry.key ++ [a.key] := by simp
    rw [hkeys] at hd hiff
    have hnd := List.nodup_append.mp hd
    have hanotin : a.key ∉ l'.map Entry.key := by
      intro hmem
      exact hnd.2.2 hmem (List.mem_singleton_self a.key)
    refine ⟨?_, hnd.1, hm.erase a.key, ?_⟩
    · rw [hn, hsum]
      have : entrySize a = a.key.utf8ByteSize + a.value.length := rfl
      rw [this]
      push_cast
      ring
    · intro k
      rw [hm.mem_erase_iff]
      rw [hiff k]
      simp only [List.mem_append, List.mem_singleton]
      constructor
      · rintro ⟨hne, hmem | rfl⟩
        · exact hmem
        · exact absurd rfl hne
      · intro hmem
        constructor
        · rintro rfl; exact hanotin hmem
        · exact Or.inl hmem

/-- `evictLoop` preserves the invariant. -/
theorem inv_evictLoop (n : Nat) (c : Cache) (h : Inv c) : Inv (evictLoop n c) := by
  induction n generalizing c with
  | zero => exact h
  | succ n ih =>
      unfold evictLoop
      by_cases hg : c.maxBytes ≠ 0 ∧ c.maxBytes < c.nbytes
      · rw [if_pos hg]
        exact ih _ (inv_removeOldest c h)
      · rw [if_neg hg]
        exact h

/-- `Add` preserves the invariant. -/
theorem inv_add (c : Cache) (key : String) (value : List Nat) (h : Inv c) :
    Inv (c.add key value) :=
  inv_evictLoop _ _ (inv_addNoEvict c key value h)

theorem maxBytes_removeOldest (c : Cache) : c.removeOldest.maxBytes = c.maxBytes := by
  unfold Cache.removeOldest
  cases c.ll.getLast? <;> rfl

theorem maxBytes_addNoEvict (c : Cache) (key : String) (value : List Nat) :
    (c.addNoEvict key value).maxBytes = c.maxBytes := by
  unfold Cache.addNoEvict
  by_cases hk : key ∈ c.mapKeys
  · simp only [if_pos hk]
    cases c.ll.find? (fun e => e.key == key) <;> rfl
  · simp only [if_neg hk]

theorem maxBytes_evictLoop (n : Nat) (c : Cache) :
    (evictLoop n c).maxBytes = c.maxBytes := by
  induction n generalizing c with
  | zero => rfl
  | succ n ih =>
      unfold evictLoop
      by_cases hg : c.maxBytes ≠ 0 ∧ c.maxBytes < c.nbytes
      · rw [if_pos hg, ih, maxBytes_removeOldest]
      · rw [if_neg hg]

theorem maxBytes_add (c : Cache) (key : String) (value : List Nat) :
    (c.add key value).maxBytes = c.maxBytes := by
  unfold Cache.add
  rw [maxBytes_evictLoop, maxBytes_addNoEvict]

/-- Removing the oldest entry of a nonempty cache shortens the list by one. -/
theorem length_removeOldest (c : Cache) (h : c.ll ≠ []) :
    c.removeOldest.ll.length = c.ll.length - 1 := by
  unfold Cache.removeOldest
  rcases List.eq_nil_or_concat c.ll with hnil | ⟨l', a, hconcat⟩
  · exact absurd hnil h
  · rw [List.concat_eq_append] at hconcat
    rw [hconcat, List.getLast?_concat]
    simp [List.dropLast_concat, hconcat]

/-- After the eviction loop with fuel at least the list length, a cache
satisfying the invariant with a positive budget is within budget. -/
theorem evictLoop_nbytes_le (n : Nat) :
    ∀ c : Cache, Inv c → 0 < c.maxBytes → c.ll.length ≤ n →
      (evictLoop n c).nbytes ≤ c.maxBytes := by
  induction n with
  | zero =>
      intro c hinv hpos hlen
      have hnil : c.ll = [] := List.eq_nil_of_length_eq_zero (Nat.le_zero.mp hlen)
      have : c.nbytes = 0 := by
        rw [hinv.1, hnil]
        rfl
      unfold evictLoop
      rw [this]
      exact le_of_lt hpos
  | succ n ih =>
      intro c hinv hpos hlen
      unfold evictLoop
      by_cases hg : c.maxBytes ≠ 0 ∧ c.maxBytes < c.nbytes
      · rw [if_pos hg]
        have hne : c.ll ≠ [] := by
          intro hnil
          have : c.nbytes = 0 := by
            rw [hinv.1, hnil]
            rfl
          rw [this] at hg
          exact absurd (lt_trans hpos hg.2) (lt_irrefl 0)
        have hlen' : c.removeOldest.ll.length ≤ n := by
          rw [length_removeOldest c hne]
          omega
        have := ih c.removeOldest (inv_removeOldest c hinv)
          (by rw [maxBytes_removeOldest]; exact hpos) hlen'
        rwa [maxBytes_removeOldest] at this
      · rw [if_neg hg]
        rcases not_and_or.mp hg with hz | hlt
        · exact absurd (fun h0 => by rw [h0] at hpos; exact lt_irrefl 0 hpos) hz
        · exact le_of_not_lt hlt

/-- After `Add` on an invariant-satisfying cache with positive budget, the
used-bytes counter is within budget. -/
theorem add_nbytes_le (c : Cache) (key : String) (value : List Nat)
    (hinv : Inv c) (hpos : 0 < c.maxBytes) :
    (c.add key value).nbytes ≤ c.maxBytes := by
  unfold Cache.add
  have hinv' := inv_addNoEvict c key value hinv
  have hpos' : 0 < (c.addNoEvict key value).maxBytes := by
    rw [maxBytes_addNoEvict]; exact hpos
  have := evictLoop_nbytes_le _ _ hinv' hpos' (le_refl _)
  rwa [maxBytes_addNoEvict] at this

theorem applyAdds_inv (m : Int) (hm : 0 < m) (ops : List (String × List Nat)) :
    ∀ c : Cache, Inv c → c.maxBytes = m → c.nbytes ≤ m →
      Inv (applyAdds c ops) ∧ (applyAdds c ops).maxBytes = m ∧
        (applyAdds c ops).nbytes ≤ m := by
  induction ops with
  | nil => intro c hinv hmb hle; exact ⟨hinv, hmb, hle⟩
  | cons p ops ih =>
      intro c hinv hmb hle
      obtain ⟨k, v⟩ := p
      have hpos : 0 < c.maxBytes := by rw [hmb]; exact hm
      refine ih (c.add k v) (inv_add c k v hinv) ?_ ?_
      · rw [maxBytes_add, hmb]
      · have := add_nbytes_le c k v hinv hpos
        rwa [hmb] at this

theorem applyOps_inv (ops : List CacheOp) :
    ∀ c : Cache, Inv c → Inv (applyOps c ops) := by
  induction ops with
  | nil => intro c hinv; exact hinv
  | cons op ops ih =>
      intro c hinv
      have hstep : Inv (applyOp c op) := by
        cases op with
        | get k => exact inv_get c k hinv
        | add k v => exact inv_add c k v hinv
        | removeOldest => exact inv_removeOldest c hinv
      exact ih _ hstep

/-- The eviction loop does nothing when the budget condition already
holds. -/
theorem evictLoop_of_not_guard (n : Nat) (c : Cache)
    (h : ¬(c.maxBytes ≠ 0 ∧ c.maxBytes < c.nbytes)) : evictLoop n c = c := by
  cases n with
  | zero => rfl
  | succ n =>
      unfold evictLoop
      rw [if_neg h]

/-- The eviction loop that fires exactly once is one `removeOldest`. -/
theorem evictLoop_one (n : Nat) (c : Cache)
    (h1 : c.maxBytes ≠ 0 ∧ c.maxBytes < c.nbytes)
    (h2 : ¬(c.removeOldest.maxBytes ≠ 0 ∧
        c.removeOldest.maxBytes < c.removeOldest.nbytes)) :
    evictLoop (n + 1) c = c.removeOldest := by
  unfold evictLoop
  rw [if_pos h1, evictLoop_of_not_guard n _ h2]

/-- `Add` of a fresh key: push the entry in front, then run the loop. -/
theorem add_of_not_mem (c : Cache) (key : String) (value : List Nat)
    (h : key ∉ c.mapKeys) :
    c.add key value =
      evictLoop (c.ll.length + 1)
        { maxBytes := c.maxBytes,
          nbytes := c.nbytes + (key.utf8ByteSize : Int) + (value.length : Int),
          ll := { key := key, value := value } :: c.ll,
          mapKeys := key :: c.mapKeys } := by
  unfold Cache.add Cache.addNoEvict
  rw [if_neg h]
  rfl

/-- `Get` on a key present in a cache satisfying the invariant: the hit
entry exists, carries that key, is moved to the front, and its value is
returned. -/
theorem get_hit (c : Cache) (k : String) (hinv : Inv c)
    (hk : k ∈ c.ll.map Entry.key) :
    ∃ e, c.ll.find? (fun e => e.key == k) = some e ∧ e.key = k ∧
      (c.get k).2 = { c with ll := e :: c.ll.eraseP (fun e => e.key == k) } ∧
      (c.get k).1 = some e.value := by
  obtain ⟨hn, hd, hm, hiff⟩ := hinv
  have hkm : k ∈ c.mapKeys := (hiff k).mpr hk
  obtain ⟨e0, he0, hke0⟩ := List.mem_map.mp hk
  have hsome : (c.ll.find? (fun e => e.key == k)).isSome := by
    rw [List.find?_isSome]
    exact ⟨e0, he0, by simp [hke0]⟩
  obtain ⟨e, hfind⟩ := Option.isSome_iff_exists.mp hsome
  have hekey : e.key = k := by
    have := (find?_mem_and_pred hfind).2
    simpa using this
  refine ⟨e, hfind, hekey, ?_, ?_⟩
  · unfold Cache.get
    rw [if_pos hkm, hfind]
  · unfold Cache.get
    rw [if_pos hkm, hfind]

/-- `removeOldest` always leaves `dropLast` of the list. -/
theorem removeOldest_ll (c : Cache) : c.removeOldest.ll = c.ll.dropLast := by
  unfold Cache.removeOldest
  cases h : c.ll.getLast? with
  | none =>
      have : c.ll = [] := List.getLast?_eq_none_iff.mp h
      rw [this]
      rfl
  | some e => rfl

/-- Eviction order scenario: A, B, C added in order with no Gets, budget
forcing exactly one eviction, leaves exactly C (most recent) and B. -/
theorem lruEvictionOrder (m : Int) (kA kB kC : String) (vA vB vC : List Nat)
    (hm : 0 < m)
    (hBA : kB ≠ kA) (hCA : kC ≠ kA) (hCB : kC ≠ kB)
    (hA : (kA.utf8ByteSize : Int) + vA.length ≤ m)
    (hAB : (kA.utf8ByteSize : Int) + vA.length + kB.utf8ByteSize + vB.length ≤ m)
    (hABC : m < (kA.utf8ByteSize : Int) + vA.length + kB.utf8ByteSize + vB.length +
      kC.utf8ByteSize + vC.length)
    (hBC : (kB.utf8ByteSize : Int) + vB.length + kC.utf8ByteSize + vC.length ≤ m) :
    ((((Cache.new m).add kA vA).add kB vB).add kC vC).ll.map Entry.key = [kC, kB] := by
  have e1 : (Cache.new m).add kA vA =
      ⟨m, 0 + (kA.utf8ByteSize : Int) + (vA.length : Int), [⟨kA, vA⟩], [kA]⟩ := by
    rw [add_of_not_mem _ _ _ (by simp [Cache.new])]
    dsimp only [Cache.new]
    exact evictLoop_of_not_guard _ _ (by rintro ⟨-, hlt⟩; dsimp only at hlt; omega)
  have e2 : ((Cache.new m).add kA vA).add kB vB =
      ⟨m, 0 + (kA.utf8ByteSize : Int) + (vA.length : Int) +
        (kB.utf8ByteSize : Int) + (vB.length : Int),
        [⟨kB, vB⟩, ⟨kA, vA⟩], [kB, kA]⟩ := by
    rw [e1, add_of_not_mem _ _ _ (by simp [hBA])]
    dsimp only
    exact evictLoop_of_not_guard _ _ (by rintro ⟨-, hlt⟩; dsimp only at hlt; omega)
  rw [e2, add_of_not_mem _ _ _ (by simp [hCA, hCB])]
  dsimp only
  have hrem : (⟨m, 0 + (kA.utf8ByteSize : Int) + (vA.length : Int) +
        (kB.utf8ByteSize : Int) + (vB.length : Int) +
        (kC.utf8ByteSize : Int) + (vC.length : Int),
        [⟨kC, vC⟩, ⟨kB, vB⟩, ⟨kA, vA⟩], [kC, kB, kA]⟩ : Cache).removeOldest =
      ⟨m, 0 + (kA.utf8ByteSize : Int) + (vA.length : Int) +
        (kB.utf8ByteSize : Int) + (vB.length : Int) +
        (kC.utf8ByteSize : Int) + (vC.length : Int) -
        ((kA.utf8ByteSize : Int) + (vA.length : Int)),
        [⟨kC, vC⟩, ⟨kB, vB⟩], [kC, kB]⟩ := by
    unfold Cache.removeOldest
    simp only [List.getLast?_cons_cons, List.getLast?_singleton]
    simp [List.dropLast, List.erase_cons, hCA, hBA]
  rw [evictLoop_one _ _ ⟨hm.ne', by dsimp only; omega⟩
    (by rw [hrem]; rintro ⟨-, hlt⟩; dsimp only at hlt; omega)]
  rw [hrem]
  simp

/-- `Get` on a present key promotes it to most-recently-used, and an
`Add` of a fresh key that triggers exactly one eviction keeps it (the
oldest untouched entry is evicted instead). -/
theorem getPromotes (c : Cache) (k k' : String) (v' : List Nat)
    (hinv : Inv c) (hk : k ∈ c.ll.map Entry.key) (hlen : 2 ≤ c.ll.length)
    (hk' : k' ∉ c.mapKeys)
    (hmb : c.maxBytes ≠ 0)
    (hover : c.maxBytes < ((c.get k).2.addNoEvict k' v').nbytes)
    (hone : (((c.get k).2.addNoEvict k' v').removeOldest).nbytes ≤ c.maxBytes) :
    ((c.get k).2.ll.head?.map Entry.key = some k) ∧
      k ∈ ((c.get k).2.add k' v').ll.map Entry.key := by
  obtain ⟨e, hfind, hekey, hc1, hval⟩ := get_hit c k hinv hk
  have hperm := find?_perm_cons_eraseP _ _ _ hfind
  have hrlen : 1 ≤ (c.ll.eraseP (fun e => e.key == k)).length := by
    have := hperm.length_eq
    simp only [List.length_cons] at this
    omega
  have hrne : c.ll.eraseP (fun e => e.key == k) ≠ [] := by
    intro hnil
    rw [hnil] at hrlen
    simp at hrlen
  constructor
  · rw [hc1]
    simp [hekey]
  · have hado : (({ c with ll := e :: c.ll.eraseP (fun e => e.key == k) } :
        Cache).addNoEvict k' v') =
        ⟨c.maxBytes, c.nbytes + (k'.utf8ByteSize : Int) + (v'.length : Int),
          ⟨k', v'⟩ :: e :: c.ll.eraseP (fun e => e.key == k), k' :: c.mapKeys⟩ := by
      unfold Cache.addNoEvict
      dsimp only
      rw [if_neg hk']
    rw [hc1] at hover hone ⊢
    rw [hado] at hover hone
    have hadd : (({ c with ll := e :: c.ll.eraseP (fun e => e.key == k) } :
        Cache).add k' v') =
        (⟨c.maxBytes, c.nbytes + (k'.utf8ByteSize : Int) + (v'.length : Int),
          ⟨k', v'⟩ :: e :: c.ll.eraseP (fun e => e.key == k), k' :: c.mapKeys⟩ :
          Cache).removeOldest := by
      unfold Cache.add
      rw [hado]
      exact evictLoop_one _ _ ⟨hmb, hover⟩
        (by
          rintro ⟨-, hlt⟩
          rw [maxBytes_removeOldest] at hlt
          dsimp only at hlt
          exact absurd hone (not_le.mpr hlt))
    rw [hadd, removeOldest_ll]
    dsimp only
    rw [List.dropLast_cons_of_ne_nil (by simp), List.dropLast_cons_of_ne_nil hrne]
    simp [hekey]

end Lru

namespace Consistenthash

/-- If no element passes the predicate, the search runs off the end. -/
theorem sortSearch_eq_length_of_filter_nil (p : Nat → Bool) :
    ∀ l : List Nat, l.filter p = [] → sortSearch p l = l.length := by
  intro l
  induction l with
  | nil => intro; rfl
  | cons a l ih =>
      intro h
      rw [List.filter_cons] at h
      by_cases hpa : p a
      · rw [if_pos hpa] at h
        exact absurd h (by simp)
      · rw [if_neg hpa] at h
        unfold sortSearch
        rw [if_neg hpa, ih h]
        rfl

/-- If some element passes, the search lands strictly inside the list. -/
theorem sortSearch_lt_length (p : Nat → Bool) :
    ∀ l : List Nat, l.filter p ≠ [] → sortSearch p l < l.length := by
  intro l
  induction l with
  | nil => intro h; simp at h
  | cons a l ih =>
      intro h
      rw [List.filter_cons] at h
      by_cases hpa : p a
      · unfold sortSearch
        rw [if_pos hpa]
        simp
      · rw [if_neg hpa] at h
        unfold sortSearch
        rw [if_neg hpa]
        simp only [List.length_cons]
        exact Nat.succ_lt_succ (ih h)

/-- The element at the search index is the head of the filtered list. -/
theorem filter_head?_eq_getD (p : Nat → Bool) :
    ∀ (l : List Nat) (d : Nat), l.filter p ≠ [] →
      (l.filter p).head? = some (l.getD (sortSearch p l) d) := by
  intro l
  induction l with
  | nil => intro d h; simp at h
  | cons a l ih =>
      intro d h
      rw [List.filter_cons] at h ⊢
      by_cases hpa : p a
      · rw [if_pos hpa] at h ⊢
        unfold sortSearch
        rw [if_pos hpa]
        simp
      · rw [if_neg hpa] at h ⊢
        unfold sortSearch
        rw [if_neg hpa, List.getD_cons_succ]
        exact ih d h

/-- Folding `min` over elements all at least the accumulator keeps it. -/
theorem foldl_min_of_le :
    ∀ (l : List Nat) (a : Nat), (∀ x ∈ l, a ≤ x) → l.foldl min a = a := by
  intro l
  induction l with
  | nil => intro a _; rfl
  | cons b l ih =>
      intro a hle
      have hab : min a b = a :=
        Nat.min_eq_left (hle b (List.mem_cons_self b l))
      simp only [List.foldl_cons, hab]
      exact ih a fun x hx => hle x (List.mem_cons_of_mem b hx)

/-- The minimum of a list sorted ascending is its head. -/
theorem sorted_min?_eq_head? :
    ∀ l : List Nat, l.Sorted (· ≤ ·) → l.min? = l.head? := by
  intro l hl
  cases l with
  | nil => rfl
  | cons a l =>
      rw [List.min?_cons']
      have := List.sorted_cons.mp hl
      rw [foldl_min_of_le l a this.1]
      rfl

/-- A Go-map lookup over bindings that all map to `v` yields `v` whenever
the looked-up key is bound. -/
theorem mapFind_const (v : String) (l : List (Nat × String))
    (hall : ∀ p ∈ l, p.2 = v) (h : Nat) (hmem : h ∈ l.map Prod.fst) :
    mapFind l h = v := by
  unfold mapFind
  cases hfind : l.find? (fun p => p.1 == h) with
  | none =>
      obtain ⟨p, hp, hph⟩ := List.mem_map.mp hmem
      have := List.find?_eq_none.mp hfind p hp
      simp [hph] at this
  | some p => exact hall p (List.mem_of_find?_eq_some hfind)

/-- An in-range `getD` hit is a member of the list. -/
theorem getD_mem_of_lt (l : List Nat) (i d : Nat) (h : i < l.length) :
    l.getD i d ∈ l := by
  rw [List.getD_eq_getElem?_getD, List.getElem?_eq_getElem h, Option.getD_some]
  exact List.getElem_mem h

/-- `Map.Get` on a nonempty ring with a sorted position list implements
the spec's clockwise nearest-successor rule. -/
theorem Get_eq_specClockwise (m : Map) (key : String)
    (hs : m.keys.Sorted (· ≤ ·)) (hne : m.keys ≠ []) :
    m.Get key = specClockwise m key := by
  unfold Map.Get specClockwise
  have hlen0 : ¬(m.keys.length = 0) := fun h => hne (List.eq_nil_of_length_eq_zero h)
  rw [if_neg hlen0]
  by_cases hf : m.keys.filter (fun pos => m.hash key ≤ pos) = []
  · rw [sortSearch_eq_length_of_filter_nil _ _ hf, hf]
    simp only [List.min?_nil]
    rw [sorted_min?_eq_head? _ hs, Nat.mod_self]
    cases hk : m.keys with
    | nil => exact absurd hk hne
    | cons a l => simp
  · have hlt := sortSearch_lt_length _ _ hf
    rw [Nat.mod_eq_of_lt hlt]
    have hhead := filter_head?_eq_getD _ m.keys 0 hf
    have hsf : (m.keys.filter (fun pos => m.hash key ≤ pos)).Sorted (· ≤ ·) :=
      hs.filter _
    rw [sorted_min?_eq_head? _ hsf, hhead]

/-- Unpack the replica loop of `addOne` over an arbitrary index list. -/
theorem addOne_foldl (key : String) :
    ∀ (idxs : List Nat) (acc : Map),
      (idxs.foldl
        (fun acc i =>
          { acc with
              keys := acc.keys ++ [acc.hash (toString i ++ key)],
              hashMap := (acc.hash (toString i ++ key), key) :: acc.hashMap })
        acc) =
      { acc with
          keys := acc.keys ++ idxs.map (fun i => acc.hash (toString i ++ key)),
          hashMap :=
            (idxs.map (fun i => (acc.hash (toString i ++ key), key))).reverse ++
              acc.hashMap } := by
  intro idxs
  induction idxs with
  | nil =>
      intro acc
      simp
  | cons i idxs ih =>
      intro acc
      rw [List.foldl_cons, ih]
      simp

/-- The components of `addOne`. -/
theorem addOne_parts (m : Map) (key : String) :
    m.addOne key =
      { m with
          keys := m.keys ++ (List.range m.replicas).map
            (fun i => m.hash (toString i ++ key)),
          hashMap :=
            ((List.range m.replicas).map
              (fun i => (m.hash (toString i ++ key), key))).reverse ++ m.hashMap } := by
  unfold Map.addOne
  exact addOne_foldl key (List.range m.replicas) m

/-- A ring holding a single real node answers that node for every key. -/
theorem ring_single_node (R : Nat) (h : String → Nat) (key : String) (hR : 1 ≤ R) :
    ((Map.new R h).Add ["node1"]).Get key = "node1" := by
  have hm : (Map.new R h).Add ["node1"] =
      { hash := h, replicas := R,
        keys := ((List.range R).map
          (fun i => h (toString i ++ "node1"))).insertionSort (· ≤ ·),
        hashMap := ((List.range R).map
          (fun i => (h (toString i ++ "node1"), "node1"))).reverse } := by
    show { Map.addOne (Map.new R h) "node1" with
        keys := ((Map.addOne (Map.new R h) "node1").keys).insertionSort (· ≤ ·) } = _
    rw [addOne_parts]
    simp [Map.new]
  rw [hm]
  unfold Map.Get
  dsimp only
  have hperm := List.perm_insertionSort (· ≤ ·)
    ((List.range R).map (fun i => h (toString i ++ "node1")))
  have hlen : (((List.range R).map
      (fun i => h (toString i ++ "node1"))).insertionSort (· ≤ ·)).length = R := by
    rw [hperm.length_eq, List.length_map, List.length_range]
  rw [if_neg (by rw [hlen]; omega)]
  apply mapFind_const
  · intro p hp
    rw [List.mem_reverse] at hp
    obtain ⟨i, _, hpi⟩ := List.mem_map.mp hp
    rw [← hpi]
  · rw [List.map_reverse, List.mem_reverse]
    have hmm : ∀ x ∈ ((List.range R).map
        (fun i => h (toString i ++ "node1"))).insertionSort (· ≤ ·),
        x ∈ ((List.range R).map
          (fun i => (h (toString i ++ "node1"), "node1"))).map Prod.fst := by
      intro x hx
      have hx' : x ∈ (List.range R).map (fun i => h (toString i ++ "node1")) :=
        hperm.mem_iff.mp hx
      simpa [List.map_map] using hx'
    apply hmm
    apply getD_mem_of_lt
    apply Nat.mod_lt
    rw [hlen]
    omega

end Consistenthash

namespace Lru

/-- A cache miss leaves the cache untouched. -/
theorem get_none_snd (c : Cache) (k : String) (h : (c.get k).1 = none) :
    (c.get k).2 = c := by
  unfold Cache.get at h ⊢
  by_cases hk : k ∈ c.mapKeys
  · rw [if_pos hk] at h ⊢
    cases hfind : c.ll.find? (fun e => e.key == k) with
    | some e => rw [hfind] at h; simp at h
    | none => rfl
  · rw [if_neg hk]

end Lru

namespace ZzaCache

/-- A wrapper-cache miss leaves the wrapper untouched. -/
theorem GCache.get_miss_keep (c : GCache) (k : String)
    (h : (GCache.get c k).1 = none) : (GCache.get c k).2 = c := by
  unfold GCache.get at h ⊢
  dsimp only at h ⊢
  have hlru : (c.lru.get k).1 = none := by
    simpa using h
  rw [Lru.get_none_snd c.lru k hlru]

/-- A wrapper-cache miss, as a single pair equation. -/
theorem GCache.get_none_pair (c : GCache) (k : String)
    (h : (GCache.get c k).1 = none) : GCache.get c k = (none, c) := by
  rw [Prod.ext_iff]
  exact ⟨h, GCache.get_miss_keep c k h⟩

/-- `Group.Get` on a miss is `load` on the untouched group, with the one
cache lookup counted. -/
theorem Group.get_miss (g : Group) (key : String) (hne : key ≠ "")
    (hmiss : (GCache.get g.mainCache key).1 = none) :
    g.get key =
      { Group.load g key with cacheLookups := (Group.load g key).cacheLookups + 1 } := by
  unfold Group.get
  rw [if_neg hne, GCache.get_none_pair g.mainCache key hmiss]

/-- Adding to an empty LRU cache whose budget is 0 (unbounded) or at
least the entry size stores exactly that entry. -/
theorem add_to_empty (budget : Int) (k : String) (X : List Nat)
    (hbud : budget = 0 ∨ ((k.utf8ByteSize : Int) + (X.length : Int)) ≤ budget) :
    Lru.Cache.add (Lru.Cache.new budget) k X =
      ⟨budget, 0 + (k.utf8ByteSize : Int) + (X.length : Int), [⟨k, X⟩], [k]⟩ := by
  rw [Lru.add_of_not_mem _ _ _ (by simp [Lru.Cache.new])]
  dsimp only [Lru.Cache.new]
  apply Lru.evictLoop_of_not_guard
  rintro ⟨hz, hlt⟩
  dsimp only at hz hlt
  rcases hbud with h0 | hle
  · exact hz h0
  · omega

/-- The first `Get "k"` on a fresh coordinator without peers: the Loader
runs once, its bytes are returned and cached (provided the budget does
not evict them immediately). -/
theorem group_first_get (name : String) (budget : Int)
    (getter : String → Except String (List Nat)) (X : List Nat)
    (hget : getter "k" = .ok X)
    (hbud : budget = 0 ∨ (("k".utf8ByteSize : Int) + (X.length : Int)) ≤ budget) :
    (Group.new name budget getter).get "k" =
      ⟨.ok ⟨X⟩,
        ⟨name, getter,
          ⟨budget, ⟨budget, 0 + ("k".utf8ByteSize : Int) + (X.length : Int),
            [⟨"k", X⟩], ["k"]⟩⟩, none⟩,
        1, 1, 0⟩ := by
  have hmiss : (GCache.get (Group.new name budget getter).mainCache "k").1 = none := rfl
  rw [Group.get_miss _ _ (by decide) hmiss]
  unfold Group.load
  dsimp only [Group.new]
  unfold Group.getLocally
  dsimp only
  rw [hget]
  dsimp only
  unfold GCache.add GCache.new
  dsimp only [cloneBytes]
  rw [add_to_empty budget "k" X hbud]

/-- A second `Get "k"` against a coordinator whose cache holds `"k"`:
a pure cache hit, no Loader call. -/
theorem group_second_get (name : String) (budget nb : Int)
    (getter : String → Except String (List Nat)) (X : List Nat) :
    (Group.mk name getter ⟨budget, ⟨budget, nb, [⟨"k", X⟩], ["k"]⟩⟩ none).get "k" =
      ⟨.ok ⟨X⟩,
        ⟨name, getter, ⟨budget, ⟨budget, nb, [⟨"k", X⟩], ["k"]⟩⟩, none⟩,
        0, 1, 0⟩ := rfl

end ZzaCache

/-! ## Claim theorems -/

/-- Claim C1: for every sequence of Add operations on a bounded recency
cache with byte budget > 0, after each Add returns (that is, after every
such sequence, all prefixes being themselves such sequences), the
used-bytes counter equals the exact sum of byte-length(key) +
byte-length(value) over the stored entries, and is at most the budget. -/
theorem claim_C1 (m : Int) (hm : 0 < m) (ops : List (String × List Nat)) :
    (Lru.applyAdds (Lru.Cache.new m) ops).nbytes =
      (Lru.sumSizes (Lru.applyAdds (Lru.Cache.new m) ops).ll : Int) ∧
    (Lru.applyAdds (Lru.Cache.new m) ops).nbytes ≤ m := by
  have h := Lru.applyAdds_inv m hm ops (Lru.Cache.new m) (Lru.inv_new m) rfl
    (le_of_lt hm)
  exact ⟨h.1.1, h.2.2⟩

theorem claim_C1_witness :
    (0 : Int) < 10 ∧
    ((Lru.applyAdds (Lru.Cache.new 10) [("ab", [1, 2, 3]), ("c", [4, 5])]).nbytes =
      (Lru.sumSizes
        (Lru.applyAdds (Lru.Cache.new 10) [("ab", [1, 2, 3]), ("c", [4, 5])]).ll : Int) ∧
     (Lru.applyAdds (Lru.Cache.new 10) [("ab", [1, 2, 3]), ("c", [4, 5])]).nbytes ≤ 10) :=
  ⟨by decide, claim_C1 10 (by decide) [("ab", [1, 2, 3]), ("c", [4, 5])]⟩

/-- Claim C10 (implicit): after every sequence of Get, Add and
RemoveOldest operations on a bounded recency cache, the key set of the
lookup map equals the key set of the recency list, and `Len` returns
their common count. -/
theorem claim_C10 (m : Int) (ops : List Lru.CacheOp) :
    (∀ k, k ∈ (Lru.applyOps (Lru.Cache.new m) ops).mapKeys ↔
        k ∈ (Lru.applyOps (Lru.Cache.new m) ops).ll.map Lru.Entry.key) ∧
    (Lru.applyOps (Lru.Cache.new m) ops).len =
      (Lru.applyOps (Lru.Cache.new m) ops).ll.length ∧
    (Lru.applyOps (Lru.Cache.new m) ops).len =
      (Lru.applyOps (Lru.Cache.new m) ops).mapKeys.length := by
  obtain ⟨hn, hd, hmk, hiff⟩ := Lru.applyOps_inv ops (Lru.Cache.new m) (Lru.inv_new m)
  refine ⟨hiff, rfl, ?_⟩
  have hperm := (List.perm_ext_iff_of_nodup hmk hd).mpr hiff
  have hlen := hperm.length_eq
  rw [List.length_map] at hlen
  exact hlen.symm

/-- Claim C2: eviction removes exactly the least-recently-used entry,
recency being refreshed by Get and Add.  First conjunct: entries added in
order A, B, C with no intervening Gets and a budget forcing exactly one
eviction leave exactly [C, B] — A is evicted.  Second conjunct: Get on a
present key promotes it to most-recently-used, and a subsequent Add (of a
fresh key) that triggers exactly one eviction never evicts that key while
an older untouched entry exists (here: the cache held at least two
entries, so an untouched one sits behind the promoted key). -/
theorem claim_C2 :
    (∀ (m : Int) (kA kB kC : String) (vA vB vC : List Nat),
        0 < m → kB ≠ kA → kC ≠ kA → kC ≠ kB →
        (kA.utf8ByteSize : Int) + vA.length ≤ m →
        (kA.utf8ByteSize : Int) + vA.length + kB.utf8ByteSize + vB.length ≤ m →
        m < (kA.utf8ByteSize : Int) + vA.length + kB.utf8ByteSize + vB.length +
          kC.utf8ByteSize + vC.length →
        (kB.utf8ByteSize : Int) + vB.length + kC.utf8ByteSize + vC.length ≤ m →
        ((((Lru.Cache.new m).add kA vA).add kB vB).add kC vC).ll.map Lru.Entry.key
          = [kC, kB]) ∧
    (∀ (c : Lru.Cache) (k k' : String) (v' : List Nat),
        Lru.Inv c → k ∈ c.ll.map Lru.Entry.key → 2 ≤ c.ll.length →
        k' ∉ c.mapKeys → c.maxBytes ≠ 0 →
        c.maxBytes < ((c.get k).2.addNoEvict k' v').nbytes →
        (((c.get k).2.addNoEvict k' v').removeOldest).nbytes ≤ c.maxBytes →
        ((c.get k).2.ll.head?.map Lru.Entry.key = some k) ∧
          k ∈ ((c.get k).2.add k' v').ll.map Lru.Entry.key) :=
  ⟨fun m kA kB kC vA vB vC hm hBA hCA hCB hA hAB hABC hBC =>
      Lru.lruEvictionOrder m kA kB kC vA vB vC hm hBA hCA hCB hA hAB hABC hBC,
   fun c k k' v' hinv hk hlen hk' hmb hover hone =>
      Lru.getPromotes c k k' v' hinv hk hlen hk' hmb hover hone⟩

theorem claim_C2_witness :
    (((((Lru.Cache.new 5).add "a" [0]).add "b" [0]).add "c" [0]).ll.map Lru.Entry.key
      = ["c", "b"]) ∧
    ((((⟨5, 4, [⟨"a", [0]⟩, ⟨"b", [0]⟩], ["a", "b"]⟩ : Lru.Cache).get "b").2.ll.head?.map
        Lru.Entry.key = some "b") ∧
      "b" ∈ (((⟨5, 4, [⟨"a", [0]⟩, ⟨"b", [0]⟩], ["a", "b"]⟩ : Lru.Cache).get
        "b").2.add "d" [0, 1]).ll.map Lru.Entry.key) :=
  ⟨claim_C2.1 5 "a" "b" "c" [0] [0] [0] (by decide) (by decide) (by decide)
      (by decide) (by decide) (by decide) (by decide) (by decide),
   claim_C2.2 ⟨5, 4, [⟨"a", [0]⟩, ⟨"b", [0]⟩], ["a", "b"]⟩ "b" "d" [0, 1]
      ⟨by decide, by decide, by decide, fun k => by simp⟩
      (by decide) (by decide) (by decide) (by decide) (by decide) (by decide)⟩

/-- Claim C7: ring lookup implements clockwise nearest-successor
assignment.  First conjunct: on any ring with a (sorted, as `Add` always
leaves it) nonempty position list, `Get` returns the node mapped at the
smallest position at least `hash(key)`, wrapping to the smallest position
when the hash exceeds all of them (`specClockwise` is that rule written
from the spec).  Second conjunct: after `New(R, h).Add("node1")` with
`R ≥ 1`, `Get` answers `"node1"` for every key. -/
theorem claim_C7 :
    (∀ (m : Consistenthash.Map) (key : String),
        m.keys.Sorted (· ≤ ·) → m.keys ≠ [] →
        m.Get key = Consistenthash.specClockwise m key) ∧
    (∀ (R : Nat) (h : String → Nat) (key : String), 1 ≤ R →
        ((Consistenthash.Map.new R h).Add ["node1"]).Get key = "node1") ∧
    (∀ (m : Consistenthash.Map) (ks : List String),
        ((m.Add ks).keys).Sorted (· ≤ ·)) :=
  ⟨fun m key hs hne => Consistenthash.Get_eq_specClockwise m key hs hne,
   fun R h key hR => Consistenthash.ring_single_node R h key hR,
   fun _ _ => List.sorted_insertionSort _ _⟩

theorem claim_C7_witness :
    (([3, 7] : List Nat).Sorted (· ≤ ·) ∧ ([3, 7] : List Nat) ≠ [] ∧
      (⟨String.length, 1, [3, 7], [(3, "a"), (7, "b")]⟩ : Consistenthash.Map).Get "xy" =
        Consistenthash.specClockwise
          ⟨String.length, 1, [3, 7], [(3, "a"), (7, "b")]⟩ "xy") ∧
    (1 ≤ 2 ∧
      ((Consistenthash.Map.new 2 String.utf8ByteSize).Add ["node1"]).Get "zz"
        = "node1") ∧
    (((Consistenthash.Map.new 1 String.length).Add ["a"]).keys).Sorted (· ≤ ·) :=
  ⟨⟨by decide, by decide, claim_C7.1 _ "xy" (by decide) (by decide)⟩,
   ⟨by decide, claim_C7.2.1 2 String.utf8ByteSize "zz" (by decide)⟩,
   claim_C7.2.2 (Consistenthash.Map.new 1 String.length) ["a"]⟩

/-- Claim C8: `Get` on a ring with no positions returns the empty
sentinel `""` rather than failing. -/
theorem claim_C8 (m : Consistenthash.Map) (key : String) (h : m.keys = []) :
    m.Get key = "" := by
  unfold Consistenthash.Map.Get
  rw [h]
  rfl

theorem claim_C8_witness :
    (Consistenthash.Map.new 3 String.length).keys = [] ∧
    (Consistenthash.Map.new 3 String.length).Get "k" = "" :=
  ⟨rfl, claim_C8 (Consistenthash.Map.new 3 String.length) "k" rfl⟩

/-- Claim C3 (amended): with no peer strategy attached and the Loader
returning bytes X for key "k", the first Get("k") returns X after one
Loader call and populates the local cache, and a second Get("k") returns
X without invoking the Loader again — provided the byte budget is 0
(unbounded) or at least byte-length("k") + byte-length(X), so the freshly
cached entry is not evicted by its own insertion. -/
theorem claim_C3 (name : String) (budget : Int)
    (getter : String → Except String (List Nat)) (X : List Nat)
    (hget : getter "k" = .ok X)
    (hbud : budget = 0 ∨ (("k".utf8ByteSize : Int) + (X.length : Int)) ≤ budget) :
    ((ZzaCache.Group.new name budget getter).get "k").res = .ok ⟨X⟩ ∧
    ((ZzaCache.Group.new name budget getter).get "k").loaderCalls = 1 ∧
    (ZzaCache.GCache.get
      ((ZzaCache.Group.new name budget getter).get "k").g.mainCache "k").1 =
      some ⟨X⟩ ∧
    (((ZzaCache.Group.new name budget getter).get "k").g.get "k").res = .ok ⟨X⟩ ∧
    (((ZzaCache.Group.new name budget getter).get "k").g.get "k").loaderCalls = 0 := by
  rw [ZzaCache.group_first_get name budget getter X hget hbud]
  refine ⟨rfl, rfl, rfl, ?_, ?_⟩
  · rw [ZzaCache.group_second_get]
  · rw [ZzaCache.group_second_get]

theorem claim_C3_witness :
    ((fun _ => Except.ok [7] : String → Except String (List Nat)) "k" = .ok [7]) ∧
    ((10 : Int) = 0 ∨ (("k".utf8ByteSize : Int) + (([7] : List Nat).length : Int)) ≤ 10) ∧
    (((ZzaCache.Group.new "gg" 10 (fun _ => Except.ok [7])).get "k").res = .ok ⟨[7]⟩ ∧
     ((ZzaCache.Group.new "gg" 10 (fun _ => Except.ok [7])).get "k").loaderCalls = 1 ∧
     (ZzaCache.GCache.get
       (((ZzaCache.Group.new "gg" 10 (fun _ => Except.ok [7])).get "k").g.mainCache)
       "k").1 = some ⟨[7]⟩ ∧
     (((ZzaCache.Group.new "gg" 10 (fun _ => Except.ok [7])).get "k").g.get "k").res =
       .ok ⟨[7]⟩ ∧
     (((ZzaCache.Group.new "gg" 10 (fun _ => Except.ok [7])).get "k").g.get
       "k").loaderCalls = 0) :=
  ⟨rfl, by decide,
   claim_C3 "gg" 10 (fun _ => Except.ok [7]) [7] rfl (by decide)⟩

/-- Claim C3, as stated, is false: with budget 1 the entry
("k", [0,0]) is evicted by its own insertion, so the second Get("k")
invokes the Loader again (one further Loader call, not zero). -/
theorem claim_C3_counterexample :
    ¬((((ZzaCache.Group.new "g" 1 (fun _ => Except.ok [0, 0])).get "k").g.get
        "k").loaderCalls = 0) := by
  decide

/-- Claim C4: when the local cache misses, a peer is picked and the
remote fetch fails, Get falls back to the Loader and returns exactly the
Loader's result (so the request fails only if the Loader fails). -/
theorem claim_C4 (g : ZzaCache.Group) (key : String) (pp : ZzaCache.PeerPicker)
    (peer : ZzaCache.PeerGetter) (err : String)
    (hne : key ≠ "")
    (hmiss : (ZzaCache.GCache.get g.mainCache key).1 = none)
    (hpp : g.peers = some pp)
    (hpick : pp.pickPeer key = some peer)
    (hfetch : peer.get g.name key = .error err) :
    (g.get key).res =
      (g.getter key).map (fun b => ZzaCache.ByteView.mk (ZzaCache.cloneBytes b)) ∧
    (g.get key).loaderCalls = 1 := by
  rw [ZzaCache.Group.get_miss g key hne hmiss]
  unfold ZzaCache.Group.load
  rw [hpp]
  dsimp only
  rw [hpick]
  dsimp only
  unfold ZzaCache.Group.getFromPeer
  rw [hfetch]
  dsimp only
  unfold ZzaCache.Group.getLocally
  cases hload : g.getter key with
  | error e => exact ⟨rfl, rfl⟩
  | ok bytes => exact ⟨rfl, rfl⟩

theorem claim_C4_witness :
    (("k" : String) ≠ "") ∧
    ((ZzaCache.Group.mk "g" (fun _ => Except.ok [7]) (ZzaCache.GCache.new 10)
        (some ⟨fun _ => some ⟨fun _ _ => Except.error "boom"⟩⟩)).get "k").res =
      (((fun _ => Except.ok [7]) : String → Except String (List Nat)) "k").map
        (fun b => ZzaCache.ByteView.mk (ZzaCache.cloneBytes b)) ∧
    ((ZzaCache.Group.mk "g" (fun _ => Except.ok [7]) (ZzaCache.GCache.new 10)
        (some ⟨fun _ => some ⟨fun _ _ => Except.error "boom"⟩⟩)).get
      "k").loaderCalls = 1 :=
  ⟨by decide,
   (claim_C4 (ZzaCache.Group.mk "g" (fun _ => Except.ok [7]) (ZzaCache.GCache.new 10)
      (some ⟨fun _ => some ⟨fun _ _ => Except.error "boom"⟩⟩)) "k"
      ⟨fun _ => some ⟨fun _ _ => Except.error "boom"⟩⟩
      ⟨fun _ _ => Except.error "boom"⟩ "boom" (by decide) rfl rfl rfl rfl).1,
   (claim_C4 (ZzaCache.Group.mk "g" (fun _ => Except.ok [7]) (ZzaCache.GCache.new 10)
      (some ⟨fun _ => some ⟨fun _ _ => Except.error "boom"⟩⟩)) "k"
      ⟨fun _ => some ⟨fun _ _ => Except.error "boom"⟩⟩
      ⟨fun _ _ => Except.error "boom"⟩ "boom" (by decide) rfl rfl rfl rfl).2⟩

/-- Claim C5: when the local cache misses, a peer is picked and the
remote fetch succeeds with bytes Y, Get returns Y, does not invoke the
Loader, and leaves the whole group — in particular the local cache —
unchanged, so the key is still absent afterwards. -/
theorem claim_C5 (g : ZzaCache.Group) (key : String) (pp : ZzaCache.PeerPicker)
    (peer : ZzaCache.PeerGetter) (Y : List Nat)
    (hne : key ≠ "")
    (hmiss : (ZzaCache.GCache.get g.mainCache key).1 = none)
    (hpp : g.peers = some pp)
    (hpick : pp.pickPeer key = some peer)
    (hfetch : peer.get g.name key = .ok Y) :
    g.get key = ⟨.ok ⟨Y⟩, g, 0, 1, 1⟩ ∧
    (ZzaCache.GCache.get (g.get key).g.mainCache key).1 = none := by
  have hmain : g.get key = ⟨.ok ⟨Y⟩, g, 0, 1, 1⟩ := by
    rw [ZzaCache.Group.get_miss g key hne hmiss]
    unfold ZzaCache.Group.load
    rw [hpp]
    dsimp only
    rw [hpick]
    dsimp only
    unfold ZzaCache.Group.getFromPeer
    rw [hfetch]
  refine ⟨hmain, ?_⟩
  rw [hmain]
  exact hmiss

theorem claim_C5_witness :
    (("k" : String) ≠ "") ∧
    ((ZzaCache.Group.mk "g" (fun _ => Except.ok [7]) (ZzaCache.GCache.new 10)
        (some ⟨fun _ => some ⟨fun _ _ => Except.ok [9]⟩⟩)).get "k" =
      ⟨.ok ⟨[9]⟩,
        ZzaCache.Group.mk "g" (fun _ => Except.ok [7]) (ZzaCache.GCache.new 10)
          (some ⟨fun _ => some ⟨fun _ _ => Except.ok [9]⟩⟩), 0, 1, 1⟩ ∧
     (ZzaCache.GCache.get
       (((ZzaCache.Group.mk "g" (fun _ => Except.ok [7]) (ZzaCache.GCache.new 10)
          (some ⟨fun _ => some ⟨fun _ _ => Except.ok [9]⟩⟩)).get "k").g.mainCache)
       "k").1 = none) :=
  ⟨by decide,
   claim_C5 (ZzaCache.Group.mk "g" (fun _ => Except.ok [7]) (ZzaCache.GCache.new 10)
      (some ⟨fun _ => some ⟨fun _ _ => Except.ok [9]⟩⟩)) "k"
      ⟨fun _ => some ⟨fun _ _ => Except.ok [9]⟩⟩
      ⟨fun _ _ => Except.ok [9]⟩ [9] (by decide) rfl rfl rfl rfl⟩

/-- Claim C6: Get("") on any coordinator returns the input-validation
error immediately: the group is unchanged and neither the local cache,
nor peer resolution, nor the Loader is consulted (all three counters are
zero). -/
theorem claim_C6 (g : ZzaCache.Group) :
    g.get "" = ⟨.error "key不能为空", g, 0, 0, 0⟩ := rfl

/-- Claim C9 is false on the code and the code contradicts its own
comments: the client URL is built with no path separator between the
configured base path ("/_zzacache", no trailing slash) and the escaped
namespace segment. -/
theorem claim_C9 :
    ZzaCache.fetchURL "http://peer" "g" "k" = "http://peer/_zzacacheg/k" ∧
    ZzaCache.fetchURL "http://peer" "g" "k" ≠
      ZzaCache.specFetchURL "http://peer" ZzaCache.defaultBasePath "g" "k" := by
  constructor
  · decide
  · decide
